import Mathlib

/-!
# Verification of the saga-go rollback engine

Shallow embedding of `saga.go`: the saga state machine, `Execute`,
`AddStep`, `Abort` and the internal `compensate` routine.

Modelling choices:
* A step's forward/backward callables are observed by the engine only
  through their returned error, so a `Step` carries the result of each
  action (`none` = success, `some msg` = the error's message).
* Every invocation of a forward or backward action is recorded as an
  `Event` in a trace, so ordering and at-most-once properties are
  statements about traces.
* A Go `context.Context` is modelled as `Ctx`: a boolean oracle indexed
  by an observation counter (one observation per `select ctx.Done()`
  check the engine performs) plus the message `ctx.Err()` reports once
  done.  The counter is threaded through the run.
* Go errors are `GoError`: either a plain error built from a message, or
  the structured `SagaError` pairing the original error with the
  formatted compensation-failure message.
* The mutex serialises whole calls, so concurrent call interleavings are
  modelled as sequential call orders on the same `SagaImpl` value.
-/

namespace SagaGo

/-- The saga lifecycle states, from `sagaState` in `saga.go`. -/
inductive SagaState where
  | initial
  | finishing
  | aborting
  | finished
deriving DecidableEq

/-- A step, reduced to what the engine observes of it: the result of its
forward action (`execute`) and of its backward action (`compensate`);
`none` means success, `some m` an error with message `m`. -/
structure Step where
  execute : Option String
  compensate : Option String
deriving DecidableEq

/-- The fields of `sagaImpl` (the mutex is modelled by sequentialising
whole calls). -/
structure SagaImpl where
  state : SagaState
  steps : List Step
  completedSteps : List Nat
deriving DecidableEq

/-- A context: `done t` tells whether the context's done-channel is
closed at the engine's `t`-th observation, `err` is the message of
`ctx.Err()`. -/
structure Ctx where
  done : Nat → Bool
  err : String

/-- A context that is never cancelled. -/
def Ctx.neverDone (ctx : Ctx) : Prop := ∀ t, ctx.done t = false

/-- Observable events: invocation of step `i`'s forward action, or of
step `i`'s backward (compensation) action. -/
inductive Event where
  | exec (i : Nat)
  | comp (i : Nat)
deriving DecidableEq

/-- Go errors as the engine produces them: a plain error with a message,
or a `SagaError` pairing the original error with the message of the
formatted compensation error. -/
inductive GoError where
  | plain (msg : String)
  | sagaErr (original : GoError) (compensation : String)
deriving DecidableEq

/-- `OriginalError` of a `SagaError`; a plain error is its own original. -/
def GoError.original : GoError → GoError
  | .plain m => .plain m
  | .sagaErr o _ => o

/-- Default step used for the (unreachable) out-of-range lookup
`s.steps[stepIndex]`: every recorded index is below `steps.length`. -/
def defaultStep : Step := ⟨none, none⟩

/-- Result of a run of `Execute` or `Abort`: returned error (`none` for
nil), the saga afterwards, the trace of invoked actions, and the final
observation counter. -/
structure ExecResult where
  err : Option GoError
  saga : SagaImpl
  trace : List Event
  tick : Nat
deriving DecidableEq

/-- Result of the internal `compensate` routine (it never mutates the
saga's fields). -/
structure CompResult where
  err : GoError
  trace : List Event
  tick : Nat
deriving DecidableEq

/-- The `"step <index>: <error>"` message recorded when a compensation
action fails (`fmt.Sprintf("step %d: %v", stepIndex, err)`). -/
def stepErrMsg (idx : Nat) (m : String) : String :=
  "step " ++ toString idx ++ ": " ++ m

/-- Loop of `compensate` in `saga.go`, walking `completedSteps` from its
end: the argument list is `completedSteps.reverse`.  Per index: skip if
`stepIndex >= failedStep`; otherwise check the context (one observation)
— if done, return `ctx.Err()` at once (the `some` in the first
component); otherwise invoke the compensation, recording its failure
message, and continue. -/
def compensateAux (steps : List Step) (ctx : Ctx) (failedStep : Nat) :
    List Nat → Nat → List String → Option String × List String × List Event × Nat
  | [], t, errs => (none, errs, [], t)
  | idx :: rest, t, errs =>
    if failedStep ≤ idx then
      compensateAux steps ctx failedStep rest t errs
    else if ctx.done t then
      (some ctx.err, errs, [], t + 1)
    else
      let errs' := match (steps.getD idx defaultStep).compensate with
        | some m => errs ++ [stepErrMsg idx m]
        | none => errs
      let r := compensateAux steps ctx failedStep rest (t + 1) errs'
      (r.1, r.2.1, Event.comp idx :: r.2.2.1, r.2.2.2)

/-- `compensate` in `saga.go`: runs the loop over `completedSteps` in
reverse; on a context-done observation returns `ctx.Err()`; otherwise
returns `origErr`, wrapped in a `SagaError` together with
`"compensation errors: [...]"` when any compensation failed.  It does
not modify `state` or `completedSteps`. -/
def compensate (s : SagaImpl) (ctx : Ctx) (t : Nat) (failedStep : Nat)
    (origErr : GoError) : CompResult :=
  match compensateAux s.steps ctx failedStep s.completedSteps.reverse t [] with
  | (some ctxErr, _, tr, t') => ⟨GoError.plain ctxErr, tr, t'⟩
  | (none, errs, tr, t') =>
    if errs = [] then ⟨origErr, tr, t'⟩
    else ⟨GoError.sagaErr origErr
        ("compensation errors: [" ++ String.intercalate "; " errs ++ "]"), tr, t'⟩

/-- Loop of `Execute` in `saga.go` over the remaining steps, `i` being
the index of the head.  Per step: check the context (one observation) —
if done return `ctx.Err()`; otherwise invoke the forward action; on
failure return `compensate(ctx, i, err)`; on success append `i` to
`completedSteps` and continue. -/
def executeAux (ctx : Ctx) : List Step → Nat → Nat → SagaImpl → ExecResult
  | [], _, t, s => ⟨none, s, [], t⟩
  | step :: rest, i, t, s =>
    if ctx.done t then ⟨some (GoError.plain ctx.err), s, [], t + 1⟩
    else
      match step.execute with
      | some e =>
        let r := compensate s ctx (t + 1) i (GoError.plain e)
        ⟨some r.err, s, Event.exec i :: r.trace, r.tick⟩
      | none =>
        let r := executeAux ctx rest (i + 1) (t + 1)
          { s with completedSteps := s.completedSteps ++ [i] }
        ⟨r.err, r.saga, Event.exec i :: r.trace, r.tick⟩

/-- `Execute` in `saga.go`: a no-op returning nil unless the state is
`Initial`; otherwise sets the state to `Finishing` and runs the loop.
Note the source never assigns `stateFinished`. -/
def Execute (s : SagaImpl) (ctx : Ctx) (t : Nat) : ExecResult :=
  if s.state ≠ SagaState.initial then ⟨none, s, [], t⟩
  else executeAux ctx s.steps 0 t { s with state := SagaState.finishing }

/-- `AddStep` in `saga.go`: appends only while the state is `Initial`. -/
def AddStep (s : SagaImpl) (st : Step) : SagaImpl :=
  if s.state = SagaState.initial then { s with steps := s.steps ++ [st] } else s

/-- The saga produced by `New()` in `saga.go`. -/
def New : SagaImpl := ⟨SagaState.initial, [], []⟩

/-- Loop of `Abort` in `saga.go`, over `completedSteps.reverse`.  Per
index: check the context (one observation) — if done, record
`"context cancelled during abort: <err>"` and break; otherwise invoke
the compensation, recording its failure message, and continue. -/
def abortAux (steps : List Step) (ctx : Ctx) :
    List Nat → Nat → List String → List String × List Event × Nat
  | [], t, errs => (errs, [], t)
  | idx :: rest, t, errs =>
    if ctx.done t then
      (errs ++ ["context cancelled during abort: " ++ ctx.err], [], t + 1)
    else
      let errs' := match (steps.getD idx defaultStep).compensate with
        | some m => errs ++ [stepErrMsg idx m]
        | none => errs
      let r := abortAux steps ctx rest (t + 1) errs'
      (r.1, Event.comp idx :: r.2.1, r.2.2)

/-- `Abort` in `saga.go`: a no-op returning nil when the state is
`Finished` or `Aborting`; otherwise sets the state to `Aborting`,
returns nil at once if no step completed, else runs the loop, resets
`completedSteps` to empty unconditionally, and returns a `SagaError`
(original `"saga aborted"`, compensation `"abort errors: [...]"`) when
any failure was recorded. -/
def Abort (s : SagaImpl) (ctx : Ctx) (t : Nat) : ExecResult :=
  if s.state = SagaState.finished ∨ s.state = SagaState.aborting then
    ⟨none, s, [], t⟩
  else
    let s1 : SagaImpl := { s with state := SagaState.aborting }
    if s1.completedSteps.length = 0 then ⟨none, s1, [], t⟩
    else
      let r := abortAux s1.steps ctx s1.completedSteps.reverse t []
      let s2 : SagaImpl := { s1 with completedSteps := [] }
      if r.1 = [] then ⟨none, s2, r.2.1, r.2.2⟩
      else
        ⟨some (GoError.sagaErr (GoError.plain "saga aborted")
            ("abort errors: [" ++ String.intercalate "; " r.1 ++ "]")),
          s2, r.2.1, r.2.2⟩

/-- A fresh saga with the given steps registered: `New()` followed by
`AddStep` for each step in order. -/
def mkSaga (L : List Step) : SagaImpl := L.foldl AddStep New

/-- The `"step <index>: <error>"` entries that the compensation loop
collects while walking the index list `l`, in walk order. -/
def compErrs (steps : List Step) (l : List Nat) : List String :=
  l.filterMap fun j => ((steps.getD j defaultStep).compensate).map (stepErrMsg j)

/-- Prepend events to a run's trace, leaving the rest unchanged. -/
def ExecResult.addTrace (pre : List Event) (r : ExecResult) : ExecResult :=
  ⟨r.err, r.saga, pre ++ r.trace, r.tick⟩

/-! ## Basic lemmas about the embedding -/

lemma foldl_AddStep (L : List Step) (M : List Step) (c : List Nat) :
    L.foldl AddStep ⟨SagaState.initial, M, c⟩ = ⟨SagaState.initial, M ++ L, c⟩ := by
  induction L generalizing M with
  | nil => simp
  | cons st L ih =>
    have h1 : AddStep ⟨SagaState.initial, M, c⟩ st = ⟨SagaState.initial, M ++ [st], c⟩ := by
      simp [AddStep]
    rw [List.foldl_cons, h1, ih]
    simp

/-- Registering the steps of `L` on a fresh saga yields the initial-state
saga holding exactly `L`. -/
lemma mkSaga_eq (L : List Step) : mkSaga L = ⟨SagaState.initial, L, []⟩ := by
  simpa [mkSaga, New] using foldl_AddStep L [] []

/-- Running `executeAux` over a block of steps whose forward actions all
succeed, with the context not yet done at any of the corresponding
observations, executes them in order, appends their indices to
`completedSteps`, and continues with the remaining steps. -/
lemma executeAux_ok_run (ctx : Ctx) (good rest : List Step) (i t : Nat) (s : SagaImpl)
    (hg : ∀ st ∈ good, st.execute = none)
    (hc : ∀ u, u < good.length → ctx.done (t + u) = false) :
    executeAux ctx (good ++ rest) i t s =
      ExecResult.addTrace ((List.range' i good.length).map Event.exec)
        (executeAux ctx rest (i + good.length) (t + good.length)
          { s with completedSteps := s.completedSteps ++ List.range' i good.length }) := by
  induction good generalizing i t s with
  | nil => simp [ExecResult.addTrace]
  | cons st g ih =>
    have h0 : ctx.done t = false := by simpa using hc 0 (by simp)
    have hst : st.execute = none := hg st (by simp)
    have hg' : ∀ x ∈ g, x.execute = none := fun x hx => hg x (by simp [hx])
    have hc' : ∀ u, u < g.length → ctx.done (t + 1 + u) = false := by
      intro u hu
      have := hc (u + 1) (by simp; omega)
      simpa [Nat.add_assoc, Nat.add_comm 1 u] using this
    simp only [List.cons_append, executeAux, h0, Bool.false_eq_true, if_false, hst,
      List.append_eq]
    rw [ih (i + 1) (t + 1) _ hg' hc']
    have e1 : i + 1 + g.length = i + (g.length + 1) := by omega
    have e2 : t + 1 + g.length = t + (g.length + 1) := by omega
    have e3 : List.range' i (g.length + 1) = i :: List.range' (i + 1) g.length :=
      List.range'_succ i g.length 1
    rw [e1, e2, List.length_cons, e3]
    simp [ExecResult.addTrace, List.append_assoc]

lemma compErrs_cons_none (steps : List Step) (j : Nat) (rest : List Nat)
    (hcomp : (steps.getD j defaultStep).compensate = none) :
    compErrs steps (j :: rest) = compErrs steps rest := by
  unfold compErrs
  rw [List.filterMap_cons]
  simp only [hcomp, Option.map_none']

lemma compErrs_cons_some (steps : List Step) (j : Nat) (rest : List Nat) (m : String)
    (hcomp : (steps.getD j defaultStep).compensate = some m) :
    compErrs steps (j :: rest) = stepErrMsg j m :: compErrs steps rest := by
  unfold compErrs
  rw [List.filterMap_cons]
  simp only [hcomp, Option.map_some']

/-- If every index in `l` is below `failedStep` and the context is never
done, the `compensate` loop invokes every listed compensation in order,
collecting exactly the `compErrs` failure messages. -/
lemma compensateAux_noCancel (steps : List Step) (ctx : Ctx) (failedStep : Nat)
    (l : List Nat) (t : Nat) (errs : List String)
    (hidx : ∀ j ∈ l, j < failedStep) (hc : Ctx.neverDone ctx) :
    compensateAux steps ctx failedStep l t errs =
      (none, errs ++ compErrs steps l, l.map Event.comp, t + l.length) := by
  induction l generalizing t errs with
  | nil => simp [compensateAux, compErrs]
  | cons j rest ih =>
    have hj : ¬ failedStep ≤ j := by
      have := hidx j (by simp)
      omega
    have hrest : ∀ x ∈ rest, x < failedStep := fun x hx => hidx x (by simp [hx])
    cases hcomp : (steps.getD j defaultStep).compensate with
    | none =>
      simp only [compensateAux, hj, if_false, hc t, Bool.false_eq_true, hcomp]
      rw [ih (t + 1) _ hrest, compErrs_cons_none steps j rest hcomp]
      simp
      omega
    | some m =>
      simp only [compensateAux, hj, if_false, hc t, Bool.false_eq_true, hcomp]
      rw [ih (t + 1) _ hrest, compErrs_cons_some steps j rest m hcomp]
      simp [List.append_assoc]
      omega

/-- If the context is never done, the `Abort` loop invokes every listed
compensation in order, collecting exactly the `compErrs` messages. -/
lemma abortAux_noCancel (steps : List Step) (ctx : Ctx) (l : List Nat)
    (t : Nat) (errs : List String) (hc : Ctx.neverDone ctx) :
    abortAux steps ctx l t errs =
      (errs ++ compErrs steps l, l.map Event.comp, t + l.length) := by
  induction l generalizing t errs with
  | nil => simp [abortAux, compErrs]
  | cons j rest ih =>
    cases hcomp : (steps.getD j defaultStep).compensate with
    | none =>
      simp only [abortAux, hc t, Bool.false_eq_true, if_false, hcomp]
      rw [ih (t + 1), compErrs_cons_none steps j rest hcomp]
      simp
      omega
    | some m =>
      simp only [abortAux, hc t, Bool.false_eq_true, if_false, hcomp]
      rw [ih (t + 1), compErrs_cons_some steps j rest m hcomp]
      simp [List.append_assoc]
      omega

/-- `compensate` under a never-done context: every completed index below
`failedStep` is compensated, walking `completedSteps` in reverse; the
result is the original error, wrapped in a `SagaError` exactly when some
compensation failed. -/
lemma compensate_noCancel (s : SagaImpl) (ctx : Ctx) (t fs : Nat) (origErr : GoError)
    (hidx : ∀ j ∈ s.completedSteps, j < fs) (hc : Ctx.neverDone ctx) :
    compensate s ctx t fs origErr =
      ⟨if compErrs s.steps s.completedSteps.reverse = [] then origErr
        else GoError.sagaErr origErr ("compensation errors: [" ++
          String.intercalate "; " (compErrs s.steps s.completedSteps.reverse) ++ "]"),
        s.completedSteps.reverse.map Event.comp, t + s.completedSteps.length⟩ := by
  have hidx' : ∀ j ∈ s.completedSteps.reverse, j < fs := by
    intro j hj
    exact hidx j (List.mem_reverse.mp hj)
  unfold compensate
  rw [compensateAux_noCancel s.steps ctx fs s.completedSteps.reverse t [] hidx' hc]
  simp only [List.nil_append, List.length_reverse]
  split
  · simp_all
  · simp_all

/-- Splitting a list at a valid index, for walking `Execute`'s loop up
to a distinguished step. -/
lemma list_split_at (L : List Step) (i : Nat) (hi : i < L.length) :
    L = L.take i ++ L[i] :: L.drop (i + 1) := by
  conv_lhs => rw [← List.take_append_drop i L]
  rw [List.drop_eq_getElem_cons hi]

lemma take_execute_ok (L : List Step) (i : Nat) (hi : i < L.length)
    (hok : ∀ j, j < i → (L.getD j defaultStep).execute = none) :
    ∀ st ∈ L.take i, st.execute = none := by
  intro st hst
  obtain ⟨j, hj, hval⟩ := List.mem_iff_getElem.mp hst
  have hjlen : j < i := by
    have := hj
    simp [List.length_take] at this
    omega
  have hjL : j < L.length := by omega
  have hgd : (L.take i)[j] = L[j] := by simp [List.getElem_take]
  rw [hgd] at hval
  have h2 := hok j hjlen
  rw [List.getD_eq_getElem L defaultStep hjL] at h2
  rw [hval] at h2
  exact h2

/-- `Execute` on a fresh saga whose steps `0..i-1` succeed and whose
step `i` fails, under a never-cancelled context: steps `0..i` run
forward, then the compensations of `0..i-1` run in reverse; the
completed list keeps `0..i-1` and the state stays `Finishing`; the
returned error is the step's own error, wrapped in a `SagaError` exactly
when some compensation failed. -/
lemma execute_failAt (L : List Step) (ctx : Ctx) (i : Nat) (hi : i < L.length)
    (hok : ∀ j, j < i → (L.getD j defaultStep).execute = none)
    (e : String) (hfail : (L.getD i defaultStep).execute = some e)
    (hc : Ctx.neverDone ctx) :
    Execute (mkSaga L) ctx 0 =
      ⟨some (if compErrs L (List.range i).reverse = [] then GoError.plain e
          else GoError.sagaErr (GoError.plain e) ("compensation errors: [" ++
            String.intercalate "; " (compErrs L (List.range i).reverse) ++ "]")),
        ⟨SagaState.finishing, L, List.range i⟩,
        (List.range (i + 1)).map Event.exec ++ (List.range i).reverse.map Event.comp,
        2 * i + 1⟩ := by
  rw [mkSaga_eq]
  unfold Execute
  rw [if_neg (by simp)]
  have hsplit := list_split_at L i hi
  have hlen : (L.take i).length = i := by
    simp [List.length_take]
    omega
  have hrun := executeAux_ok_run ctx (L.take i) (L[i] :: L.drop (i + 1)) 0 0
    ⟨SagaState.finishing, L, []⟩ (take_execute_ok L i hi hok) (fun u _ => hc _)
  rw [← hsplit] at hrun
  simp only [hlen, Nat.zero_add, List.nil_append, ← List.range_eq_range'] at hrun
  have hfail' : L[i].execute = some e := by
    rw [← List.getD_eq_getElem L defaultStep hi]
    exact hfail
  have hcompVal := compensate_noCancel ⟨SagaState.finishing, L, List.range i⟩ ctx
    (i + 1) i (GoError.plain e) (by intro j hj; simpa using List.mem_range.mp hj) hc
  simp only [executeAux, hc i, Bool.false_eq_true, if_false, hfail'] at hrun
  rw [hrun, hcompVal]
  simp only [ExecResult.addTrace, List.range_succ, List.map_append, List.map_cons,
    List.map_nil, List.append_assoc, List.cons_append, List.nil_append,
    List.length_range, ExecResult.mk.injEq]
  exact ⟨trivial, trivial, trivial, by omega⟩

/-- `Execute` on a fresh saga whose steps `0..i-1` succeed, with the
context first observed done at the check before step `i`: the loop stops
before step `i`, returns the context's error, and leaves the state
`Finishing` with `0..i-1` still recorded as completed — no compensation
is attempted. -/
lemma execute_cancelledBefore (L : List Step) (ctx : Ctx) (i : Nat) (hi : i < L.length)
    (hok : ∀ j, j < i → (L.getD j defaultStep).execute = none)
    (hlive : ∀ u, u < i → ctx.done u = false) (hdone : ctx.done i = true) :
    Execute (mkSaga L) ctx 0 =
      ⟨some (GoError.plain ctx.err), ⟨SagaState.finishing, L, List.range i⟩,
        (List.range i).map Event.exec, i + 1⟩ := by
  rw [mkSaga_eq]
  unfold Execute
  rw [if_neg (by simp)]
  have hsplit := list_split_at L i hi
  have hlen : (L.take i).length = i := by
    simp [List.length_take]
    omega
  have hrun := executeAux_ok_run ctx (L.take i) (L[i] :: L.drop (i + 1)) 0 0
    ⟨SagaState.finishing, L, []⟩ (take_execute_ok L i hi hok)
    (by intro u hu; rw [hlen] at hu; simpa using hlive u hu)
  rw [← hsplit] at hrun
  simp only [hlen, Nat.zero_add, List.nil_append, ← List.range_eq_range'] at hrun
  simp only [executeAux, hdone, if_true] at hrun
  rw [hrun]
  simp [ExecResult.addTrace]

/-- `Execute` on a fresh saga whose steps all succeed, with the context
not done at any of the per-step checks: every step runs forward, nothing
is compensated, the completed list holds every index — and the state is
left at `Finishing` (the source never assigns `stateFinished`). -/
lemma execute_allOk (L : List Step) (ctx : Ctx)
    (hok : ∀ st ∈ L, st.execute = none)
    (hlive : ∀ u, u < L.length → ctx.done u = false) :
    Execute (mkSaga L) ctx 0 =
      ⟨none, ⟨SagaState.finishing, L, List.range L.length⟩,
        (List.range L.length).map Event.exec, L.length⟩ := by
  rw [mkSaga_eq]
  unfold Execute
  rw [if_neg (by simp)]
  have hrun := executeAux_ok_run ctx L [] 0 0 ⟨SagaState.finishing, L, []⟩ hok
    (by intro u hu; simpa using hlive u hu)
  rw [List.append_nil] at hrun
  simp only [Nat.zero_add, List.nil_append, ← List.range_eq_range'] at hrun
  rw [hrun]
  simp [ExecResult.addTrace, executeAux]

/-- The loop of `Execute` never changes the lifecycle state. -/
lemma executeAux_state (ctx : Ctx) (l : List Step) (i t : Nat) (s : SagaImpl) :
    (executeAux ctx l i t s).saga.state = s.state := by
  induction l generalizing i t s with
  | nil => rfl
  | cons st rest ih =>
    by_cases h : ctx.done t
    · simp [executeAux, h]
    · cases hex : st.execute with
      | some e => simp [executeAux, h, hex]
      | none =>
        simp only [executeAux, h, Bool.false_eq_true, if_false, hex]
        exact ih (i + 1) (t + 1) _

/-- The state after a call to `Execute`: `Finishing` if it was
`Initial`, otherwise unchanged (the call is a no-op). -/
lemma Execute_state (s : SagaImpl) (ctx : Ctx) (t : Nat) :
    (Execute s ctx t).saga.state =
      if s.state = SagaState.initial then SagaState.finishing else s.state := by
  unfold Execute
  by_cases h : s.state = SagaState.initial
  · rw [if_neg (by simp [h]), if_pos h]
    exact executeAux_state ctx s.steps 0 t _
  · rw [if_pos (by simp [h]), if_neg h]

/-- An effective `Abort` (state neither `Finished` nor `Aborting`)
always leaves the state `Aborting` and the completed list empty,
whatever the context does. -/
lemma Abort_saga (s : SagaImpl) (ctx : Ctx) (t : Nat)
    (h1 : s.state ≠ SagaState.finished) (h2 : s.state ≠ SagaState.aborting) :
    (Abort s ctx t).saga = ⟨SagaState.aborting, s.steps, []⟩ := by
  unfold Abort
  rw [if_neg (by simp [h1, h2])]
  by_cases hemp : s.completedSteps.length = 0
  · have hnil : s.completedSteps = [] := List.length_eq_zero.mp hemp
    simp [hnil]
  · simp only [hemp, if_false]
    split <;> rfl

/-- An effective `Abort` under a never-done context compensates every
completed step in reverse completion order, clears the completed list,
and reports the collected compensation failures, if any. -/
lemma Abort_effective (s : SagaImpl) (ctx : Ctx) (t : Nat)
    (h1 : s.state ≠ SagaState.finished) (h2 : s.state ≠ SagaState.aborting)
    (hc : Ctx.neverDone ctx) :
    Abort s ctx t =
      ⟨if compErrs s.steps s.completedSteps.reverse = [] then none
          else some (GoError.sagaErr (GoError.plain "saga aborted")
            ("abort errors: [" ++ String.intercalate "; "
              (compErrs s.steps s.completedSteps.reverse) ++ "]")),
        ⟨SagaState.aborting, s.steps, []⟩,
        s.completedSteps.reverse.map Event.comp,
        t + s.completedSteps.length⟩ := by
  unfold Abort
  rw [if_neg (by simp [h1, h2])]
  by_cases hemp : s.completedSteps.length = 0
  · have hnil : s.completedSteps = [] := List.length_eq_zero.mp hemp
    simp [hnil, compErrs]
  · simp only [hemp, if_false]
    rw [abortAux_noCancel s.steps ctx s.completedSteps.reverse t [] hc]
    simp only [List.nil_append, List.length_reverse]
    split
    · simp_all
    · simp_all

/-! ## Concrete objects used by witnesses and counterexamples -/

/-- A context whose done-channel never closes. -/
def ctxLive : Ctx := ⟨fun _ => false, "context cancelled"⟩

lemma ctxLive_neverDone : Ctx.neverDone ctxLive := fun _ => rfl

/-- A context first observed done at observation `n` (monotone, like a
real deadline). -/
def ctxFrom (n : Nat) : Ctx := ⟨fun t => decide (n ≤ t), "context deadline exceeded"⟩

/-- A step whose forward and backward actions both succeed. -/
def okStep : Step := ⟨none, none⟩

/-! ## The claims -/

/-- C1: for a fresh saga whose steps `1..k-1` (1-indexed) all succeed
and whose step `k` fails, with the context never cancelled, `Execute`'s
trace is exactly the forward runs of steps `1..k` followed by the
compensations of steps `k-1, k-2, ..., 1` in strict reverse order, and
step `k`'s own compensation is never invoked.  Here `i = k - 1` is the
failing step's 0-indexed position. -/
theorem execute_failure_compensates_reverse (L : List Step) (ctx : Ctx) (i : Nat)
    (hi : i < L.length)
    (hok : ∀ j, j < i → (L.getD j defaultStep).execute = none)
    (e : String) (hfail : (L.getD i defaultStep).execute = some e)
    (hc : Ctx.neverDone ctx) :
    (Execute (mkSaga L) ctx 0).trace =
      (List.range (i + 1)).map Event.exec ++ (List.range i).reverse.map Event.comp ∧
    Event.comp i ∉ (Execute (mkSaga L) ctx 0).trace := by
  rw [execute_failAt L ctx i hi hok e hfail hc]
  refine ⟨rfl, ?_⟩
  simp

theorem execute_failure_compensates_reverse_witness :
    (Execute (mkSaga [okStep, okStep, ⟨some "boom", none⟩]) ctxLive 0).trace =
      (List.range 3).map Event.exec ++ (List.range 2).reverse.map Event.comp ∧
    Event.comp 2 ∉ (Execute (mkSaga [okStep, okStep, ⟨some "boom", none⟩]) ctxLive 0).trace :=
  execute_failure_compensates_reverse [okStep, okStep, ⟨some "boom", none⟩] ctxLive 2
    (by decide) (by decide) "boom" (by decide) ctxLive_neverDone

/-- C2 (code bug): after `Execute` fails at step 2 and its failure path
compensates step 1, `completedSteps` is NOT cleared (`compensate` never
resets it), so a subsequent `Abort` compensates step 1 a second time:
its compensation is invoked twice across the saga's lifetime. -/
theorem double_compensation_after_failed_execute_then_abort :
    (Execute (mkSaga [okStep, ⟨some "step 2 failed", none⟩]) ctxLive 0).trace =
      [Event.exec 0, Event.exec 1, Event.comp 0] ∧
    (Execute (mkSaga [okStep, ⟨some "step 2 failed", none⟩]) ctxLive 0).saga.completedSteps
      = [0] ∧
    (Abort (Execute (mkSaga [okStep, ⟨some "step 2 failed", none⟩]) ctxLive 0).saga
        ctxLive 0).trace = [Event.comp 0] ∧
    ((Execute (mkSaga [okStep, ⟨some "step 2 failed", none⟩]) ctxLive 0).trace ++
      (Abort (Execute (mkSaga [okStep, ⟨some "step 2 failed", none⟩]) ctxLive 0).saga
        ctxLive 0).trace).count (Event.comp 0) = 2 := by
  decide

/-- C3 (code bug): `stateFinished` is never assigned in the source, so a
fully successful `Execute` leaves the state `Finishing`; a subsequent
`Abort` is then not a no-op — it invokes the completed steps'
compensations. -/
theorem abort_after_successful_execute_compensates :
    (Execute (mkSaga [okStep]) ctxLive 0).err = none ∧
    (Execute (mkSaga [okStep]) ctxLive 0).saga.state = SagaState.finishing ∧
    (Execute (mkSaga [okStep]) ctxLive 0).saga.state ≠ SagaState.finished ∧
    (Abort (Execute (mkSaga [okStep]) ctxLive 0).saga ctxLive 0).trace = [Event.comp 0] := by
  decide

/-- C4 counterexample: two steps whose forward actions would succeed,
with the context first observed done at the check before step 2 (index
1): `Execute` returns the cancellation error but compensates nothing —
the claim's required compensation of step 1 (`Event.comp 0`) does not
happen. -/
theorem cancel_before_step_no_compensation_cex :
    (Execute (mkSaga [okStep, okStep]) (ctxFrom 1) 0).err =
      some (GoError.plain "context deadline exceeded") ∧
    (Execute (mkSaga [okStep, okStep]) (ctxFrom 1) 0).trace = [Event.exec 0] ∧
    Event.comp 0 ∉ (Execute (mkSaga [okStep, okStep]) (ctxFrom 1) 0).trace := by
  decide

/-- C4 as amended: when the context is first observed done at the check
before step `k` (0-indexed `i`), `Execute` returns the cancellation
error, never runs step `k`'s forward action, runs NO compensation at
all, and leaves steps `1..k-1` recorded in `completedSteps` (for a later
`Abort` to compensate). -/
theorem execute_cancelled_before_step (L : List Step) (ctx : Ctx) (i : Nat)
    (hi : i < L.length)
    (hok : ∀ j, j < i → (L.getD j defaultStep).execute = none)
    (hlive : ∀ u, u < i → ctx.done u = false) (hdone : ctx.done i = true) :
    (Execute (mkSaga L) ctx 0).err = some (GoError.plain ctx.err) ∧
    Event.exec i ∉ (Execute (mkSaga L) ctx 0).trace ∧
    (∀ j, Event.comp j ∉ (Execute (mkSaga L) ctx 0).trace) ∧
    (Execute (mkSaga L) ctx 0).saga.completedSteps = List.range i := by
  rw [execute_cancelledBefore L ctx i hi hok hlive hdone]
  refine ⟨rfl, ?_, ?_, rfl⟩
  · simp
  · intro j
    simp

theorem execute_cancelled_before_step_witness :
    (Execute (mkSaga [okStep, okStep]) (ctxFrom 1) 0).err =
      some (GoError.plain (ctxFrom 1).err) ∧
    Event.exec 1 ∉ (Execute (mkSaga [okStep, okStep]) (ctxFrom 1) 0).trace ∧
    (∀ j, Event.comp j ∉ (Execute (mkSaga [okStep, okStep]) (ctxFrom 1) 0).trace) ∧
    (Execute (mkSaga [okStep, okStep]) (ctxFrom 1) 0).saga.completedSteps = List.range 1 :=
  execute_cancelled_before_step [okStep, okStep] (ctxFrom 1) 1
    (by decide) (by decide) (by decide) (by decide)

/-- C5 counterexample: step 1 succeeds, step 2 fails with `"boom"`, and
the context is first observed done at the compensation pass's first
check: `Execute` returns only the cancellation error — the triggering
step failure `"boom"` is silently dropped (it is not the returned error
nor the `OriginalError` of a returned `SagaError`), and the compensation
of step 1 is not run either. -/
theorem cancelled_compensation_drops_original_error_cex :
    (Execute (mkSaga [okStep, ⟨some "boom", none⟩]) (ctxFrom 2) 0).err =
      some (GoError.plain "context deadline exceeded") ∧
    (Execute (mkSaga [okStep, ⟨some "boom", none⟩]) (ctxFrom 2) 0).err.map GoError.original ≠
      some (GoError.plain "boom") ∧
    (Execute (mkSaga [okStep, ⟨some "boom", none⟩]) (ctxFrom 2) 0).trace =
      [Event.exec 0, Event.exec 1] := by
  decide

/-- C5 as amended: when the context is never cancelled, a triggering
step failure is always surfaced — the returned error is either the
step's own error or a `SagaError` whose `OriginalError` is the step's
error. -/
theorem execute_failure_error_surfaced_uncancelled (L : List Step) (ctx : Ctx) (i : Nat)
    (hi : i < L.length)
    (hok : ∀ j, j < i → (L.getD j defaultStep).execute = none)
    (e : String) (hfail : (L.getD i defaultStep).execute = some e)
    (hc : Ctx.neverDone ctx) :
    (Execute (mkSaga L) ctx 0).err.map GoError.original = some (GoError.plain e) := by
  rw [execute_failAt L ctx i hi hok e hfail hc]
  by_cases hE : compErrs L (List.range i).reverse = []
  · simp [hE, GoError.original]
  · simp [hE, GoError.original]

theorem execute_failure_error_surfaced_uncancelled_witness :
    (Execute (mkSaga [⟨none, some "cleanup failed"⟩, ⟨some "boom", none⟩]) ctxLive 0).err.map
      GoError.original = some (GoError.plain "boom") :=
  execute_failure_error_surfaced_uncancelled [⟨none, some "cleanup failed"⟩, ⟨some "boom", none⟩]
    ctxLive 1 (by decide) (by decide) "boom" (by decide) ctxLive_neverDone

/-- C6: when step `i` (0-indexed) fails, at least one compensation also
fails, and the context is never cancelled, the unwind still visits every
earlier step (the trace holds all compensations of `0..i-1` in reverse
order, past any failing ones), and `Execute` returns the structured
`SagaError` pairing the triggering error with the concatenation of all
`"step <index>: <error>"` entries, collected in compensation order
(`compErrs` over the reversed index range). -/
theorem compensation_failures_aggregated (L : List Step) (ctx : Ctx) (i : Nat)
    (hi : i < L.length)
    (hok : ∀ j, j < i → (L.getD j defaultStep).execute = none)
    (e : String) (hfail : (L.getD i defaultStep).execute = some e)
    (hc : Ctx.neverDone ctx)
    (hbad : ∃ j, j < i ∧ (L.getD j defaultStep).compensate ≠ none) :
    (Execute (mkSaga L) ctx 0).err =
      some (GoError.sagaErr (GoError.plain e) ("compensation errors: [" ++
        String.intercalate "; " (compErrs L (List.range i).reverse) ++ "]")) ∧
    (Execute (mkSaga L) ctx 0).trace =
      (List.range (i + 1)).map Event.exec ++ (List.range i).reverse.map Event.comp := by
  have hbad' : compErrs L (List.range i).reverse ≠ [] := by
    obtain ⟨j, hj, hcompj⟩ := hbad
    intro hnil
    simp only [compErrs] at hnil
    rw [List.filterMap_eq_nil_iff] at hnil
    have hj2 := hnil j (by simp [List.mem_reverse, List.mem_range, hj])
    rw [Option.map_eq_none'] at hj2
    exact hcompj hj2
  rw [execute_failAt L ctx i hi hok e hfail hc]
  exact ⟨by rw [if_neg hbad'], rfl⟩

theorem compensation_failures_aggregated_witness :
    (Execute (mkSaga [⟨none, some "compensation 1 failed"⟩, ⟨some "step 2 failed", none⟩])
        ctxLive 0).err =
      some (GoError.sagaErr (GoError.plain "step 2 failed") ("compensation errors: [" ++
        String.intercalate "; "
          (compErrs [⟨none, some "compensation 1 failed"⟩, ⟨some "step 2 failed", none⟩]
            (List.range 1).reverse) ++ "]")) ∧
    (Execute (mkSaga [⟨none, some "compensation 1 failed"⟩, ⟨some "step 2 failed", none⟩])
        ctxLive 0).trace =
      (List.range 2).map Event.exec ++ (List.range 1).reverse.map Event.comp :=
  compensation_failures_aggregated
    [⟨none, some "compensation 1 failed"⟩, ⟨some "step 2 failed", none⟩] ctxLive 1
    (by decide) (by decide) "step 2 failed" (by decide) ctxLive_neverDone
    ⟨0, by decide, by decide⟩

/-- C7: when every forward action succeeds and the context is never
cancelled, `Execute` returns no error and no compensation action is
ever invoked. -/
theorem execute_all_success_no_compensation (L : List Step) (ctx : Ctx)
    (hok : ∀ st ∈ L, st.execute = none) (hc : Ctx.neverDone ctx) :
    (Execute (mkSaga L) ctx 0).err = none ∧
    ∀ j, Event.comp j ∉ (Execute (mkSaga L) ctx 0).trace := by
  rw [execute_allOk L ctx hok (fun u _ => hc u)]
  refine ⟨rfl, ?_⟩
  intro j
  simp

theorem execute_all_success_no_compensation_witness :
    (Execute (mkSaga [okStep, okStep]) ctxLive 0).err = none ∧
    ∀ j, Event.comp j ∉ (Execute (mkSaga [okStep, okStep]) ctxLive 0).trace :=
  execute_all_success_no_compensation [okStep, okStep] ctxLive (by decide) ctxLive_neverDone

/-- C8: `AddStep` appends exactly when the state is `Initial`, and is
the identity otherwise; since `Execute` always leaves a non-`Initial`
state, an `AddStep` after any `Execute` call leaves the saga — steps,
count and all behaviour — unchanged. -/
theorem addStep_only_in_initial_state (s : SagaImpl) (st : Step) (ctx : Ctx) (t : Nat) :
    (s.state = SagaState.initial → (AddStep s st).steps = s.steps ++ [st]) ∧
    (s.state ≠ SagaState.initial → AddStep s st = s) ∧
    AddStep (Execute s ctx t).saga st = (Execute s ctx t).saga := by
  refine ⟨?_, ?_, ?_⟩
  · intro h
    unfold AddStep
    rw [if_pos h]
  · intro h
    unfold AddStep
    rw [if_neg h]
  · have hne : (Execute s ctx t).saga.state ≠ SagaState.initial := by
      rw [Execute_state]
      split <;> simp_all
    unfold AddStep
    rw [if_neg hne]

theorem addStep_only_in_initial_state_witness :
    (AddStep New okStep).steps = New.steps ++ [okStep] ∧
    AddStep (Execute New ctxLive 0).saga okStep = (Execute New ctxLive 0).saga :=
  ⟨(addStep_only_in_initial_state New okStep ctxLive 0).1 rfl,
    (addStep_only_in_initial_state New okStep ctxLive 0).2.2⟩

/-- C9: when `Execute`'s pre-step cancellation check fires before step
`k` (0-indexed `i`), it returns the context's error with the state left
`Finishing` and `completedSteps` still holding `0..i-1`; a subsequent
`Abort` (under a context that is not cancelled) then compensates exactly
those steps in reverse order. -/
theorem cancelled_execute_then_abort_compensates (L : List Step) (ctx ctx2 : Ctx)
    (i t2 : Nat) (hi : i < L.length)
    (hok : ∀ j, j < i → (L.getD j defaultStep).execute = none)
    (hlive : ∀ u, u < i → ctx.done u = false) (hdone : ctx.done i = true)
    (hc2 : Ctx.neverDone ctx2) :
    (Execute (mkSaga L) ctx 0).err = some (GoError.plain ctx.err) ∧
    (Execute (mkSaga L) ctx 0).saga.state = SagaState.finishing ∧
    (Execute (mkSaga L) ctx 0).saga.completedSteps = List.range i ∧
    (Abort (Execute (mkSaga L) ctx 0).saga ctx2 t2).trace =
      (List.range i).reverse.map Event.comp := by
  rw [execute_cancelledBefore L ctx i hi hok hlive hdone]
  refine ⟨rfl, rfl, rfl, ?_⟩
  rw [Abort_effective ⟨SagaState.finishing, L, List.range i⟩ ctx2 t2
    (by simp) (by simp) hc2]

theorem cancelled_execute_then_abort_compensates_witness :
    (Execute (mkSaga [okStep, okStep]) (ctxFrom 1) 0).err =
      some (GoError.plain (ctxFrom 1).err) ∧
    (Execute (mkSaga [okStep, okStep]) (ctxFrom 1) 0).saga.state = SagaState.finishing ∧
    (Execute (mkSaga [okStep, okStep]) (ctxFrom 1) 0).saga.completedSteps = List.range 1 ∧
    (Abort (Execute (mkSaga [okStep, okStep]) (ctxFrom 1) 0).saga ctxLive 0).trace =
      (List.range 1).reverse.map Event.comp :=
  cancelled_execute_then_abort_compensates [okStep, okStep] (ctxFrom 1) ctxLive 1 0
    (by decide) (by decide) (by decide) (by decide) ctxLive_neverDone

/-- C10: an effective `Abort` (not short-circuited by
`Finished`/`Aborting`) leaves `completedSteps` empty unconditionally —
for any context, including one whose cancellation stops the
compensation loop early — and leaves the state `Aborting`, so any later
`Abort` or `Execute` call is a pure no-op that compensates nothing. -/
theorem abort_clears_completed_steps (s : SagaImpl) (ctx ctx2 : Ctx) (t t2 : Nat)
    (h1 : s.state ≠ SagaState.finished) (h2 : s.state ≠ SagaState.aborting) :
    (Abort s ctx t).saga.completedSteps = [] ∧
    (Abort s ctx t).saga.state = SagaState.aborting ∧
    Abort (Abort s ctx t).saga ctx2 t2 = ⟨none, (Abort s ctx t).saga, [], t2⟩ ∧
    Execute (Abort s ctx t).saga ctx2 t2 = ⟨none, (Abort s ctx t).saga, [], t2⟩ := by
  rw [Abort_saga s ctx t h1 h2]
  refine ⟨rfl, rfl, ?_, ?_⟩
  · unfold Abort
    rw [if_pos (by simp)]
  · unfold Execute
    rw [if_pos (by simp)]

theorem abort_clears_completed_steps_witness :
    (Abort ⟨SagaState.finishing, [okStep, okStep], [0, 1]⟩ (ctxFrom 0) 0).saga.completedSteps
      = [] ∧
    (Abort ⟨SagaState.finishing, [okStep, okStep], [0, 1]⟩ (ctxFrom 0) 0).saga.state
      = SagaState.aborting ∧
    Abort (Abort ⟨SagaState.finishing, [okStep, okStep], [0, 1]⟩ (ctxFrom 0) 0).saga ctxLive 0 =
      ⟨none, (Abort ⟨SagaState.finishing, [okStep, okStep], [0, 1]⟩ (ctxFrom 0) 0).saga, [], 0⟩ ∧
    Execute (Abort ⟨SagaState.finishing, [okStep, okStep], [0, 1]⟩ (ctxFrom 0) 0).saga ctxLive 0 =
      ⟨none, (Abort ⟨SagaState.finishing, [okStep, okStep], [0, 1]⟩ (ctxFrom 0) 0).saga, [], 0⟩ :=
  abort_clears_completed_steps ⟨SagaState.finishing, [okStep, okStep], [0, 1]⟩
    (ctxFrom 0) ctxLive 0 0 (by decide) (by decide)

end SagaGo
